import Mathlib

/-!
Shallow embedding of `tranclator` (src/main.rs), a word-substitution text
transformer.  Rust strings are modelled as `List Char` (sequences of Unicode
scalar values); the byte offsets that the Rust code manipulates (indices
returned by `str::match_indices`, `word.len()`, slicing and
`String::replace_range`) are modelled faithfully through the UTF-8 byte size
of each character (`Char.utf8Size`), so that an index that is out of range or
falls inside a multi-byte character — which makes the Rust program panic — is
modelled as `Option.none`.

The Unicode case tables used by Rust's `char::to_lowercase` /
`char::to_uppercase` are external data; they are modelled here on the ASCII
range plus U+212A KELVIN SIGN (which lowercases to the one-byte 'k'), and as
the identity elsewhere.  On every character appearing in this development the
model agrees with the real Unicode tables.
-/

namespace Tranclator

/-- The Unicode `White_Space` set, the characters trimmed by Rust's
`str::trim`. -/
def rustWhitespaceList : List Char :=
  ['\t', '\n', '\x0B', '\x0C', '\r', ' ', '\u0085', ' ', ' ',
   ' ', ' ', ' ', ' ', ' ', ' ', ' ',
   ' ', ' ', ' ', ' ', ' ', ' ', ' ',
   ' ', '　']

/-- Model of Rust `char::is_whitespace`. -/
def isRustWhitespace (c : Char) : Bool :=
  rustWhitespaceList.contains c

/-- Model of Rust `str::trim`: drop whitespace from both ends. -/
def trim (s : List Char) : List Char :=
  ((s.dropWhile isRustWhitespace).reverse.dropWhile isRustWhitespace).reverse

/-- Model of Rust `char::to_lowercase` (a character can lowercase to several
characters in general).  Covers ASCII and U+212A KELVIN SIGN, identity
elsewhere. -/
def charLower (c : Char) : List Char :=
  if 65 ≤ c.toNat ∧ c.toNat ≤ 90 then [Char.ofNat (c.toNat + 32)]
  else if c.toNat = 0x212A then ['k']
  else [c]

/-- Model of Rust `char::to_uppercase`.  Covers ASCII, identity elsewhere. -/
def charUpper (c : Char) : List Char :=
  if 97 ≤ c.toNat ∧ c.toNat ≤ 122 then [Char.ofNat (c.toNat - 32)]
  else [c]

/-- Model of Rust `str::to_lowercase`. -/
def toLower : List Char → List Char
  | [] => []
  | c :: cs => charLower c ++ toLower cs

/-- Model of Rust `str::to_uppercase`. -/
def toUpper : List Char → List Char
  | [] => []
  | c :: cs => charUpper c ++ toUpper cs

/-- UTF-8 byte length of a string, i.e. Rust's `str::len`. -/
def utf8Len (s : List Char) : Nat :=
  (s.map Char.utf8Size).sum

/-- Split a string at a byte offset, as Rust byte indexing does: returns the
two halves when the offset is a character boundary within the string, and
`none` (Rust: panic) otherwise. -/
def splitAtByte : Nat → List Char → Option (List Char × List Char)
  | 0, s => some ([], s)
  | _ + 1, [] => none
  | n + 1, c :: cs =>
    if c.utf8Size ≤ n + 1 then
      (splitAtByte (n + 1 - c.utf8Size) cs).map (fun p => (c :: p.1, p.2))
    else none

/-- Model of Rust `String::replace` for a non-empty pattern: replace the
leftmost, non-overlapping occurrences of `pat` by `rep`.  The `skip` counter
tracks characters still to consume from an already-replaced match. -/
def replaceAllNE (pat rep : List Char) : List Char → Nat → List Char
  | [], _ => []
  | _ :: cs, Nat.succ k => replaceAllNE pat rep cs k
  | c :: cs, 0 =>
    if pat.isPrefixOf (c :: cs) then
      rep ++ replaceAllNE pat rep cs (pat.length - 1)
    else
      c :: replaceAllNE pat rep cs 0

/-- Model of Rust `String::replace` for the empty pattern: `rep` is inserted
at every character boundary, both ends included. -/
def replaceAllEmpty (rep : List Char) : List Char → List Char
  | [] => rep
  | c :: cs => rep ++ c :: replaceAllEmpty rep cs

/-- Model of Rust `String::replace`. -/
def strReplace (s pat rep : List Char) : List Char :=
  if pat = [] then replaceAllEmpty rep s else replaceAllNE pat rep s 0

/-- Byte offsets of every character boundary of `s` (shifted by `off`),
end boundary included: where Rust `str::match_indices` reports the matches of
an empty pattern. -/
def byteBoundaries : List Char → Nat → List Nat
  | [], off => [off]
  | c :: cs, off => off :: byteBoundaries cs (off + c.utf8Size)

/-- Byte offsets of the leftmost, non-overlapping occurrences of the
non-empty pattern `pat`, starting at byte offset `off`; `skip` counts the
characters of a just-reported match still to consume. -/
def matchIndicesFrom (pat : List Char) : List Char → Nat → Nat → List Nat
  | [], _, _ => []
  | c :: cs, off, Nat.succ k => matchIndicesFrom pat cs (off + c.utf8Size) k
  | c :: cs, off, 0 =>
    if pat.isPrefixOf (c :: cs) then
      off :: matchIndicesFrom pat cs (off + c.utf8Size) (pat.length - 1)
    else
      matchIndicesFrom pat cs (off + c.utf8Size) 0

/-- Model of Rust `str::match_indices(pat)` (byte offsets only): offsets of
the disjoint, leftmost-first matches of `pat` in `s`. -/
def matchIndices (pat s : List Char) : List Nat :=
  if pat = [] then byteBoundaries s 0 else matchIndicesFrom pat s 0 0

/-- src/main.rs lines 46-52. -/
inductive CapitalizationMode
  | Lower
  | Preserve
  | Upper
deriving DecidableEq

/-- src/main.rs lines 38-44.  The `IndexMap` dictionary is modelled as its
insertion-ordered sequence of key/value pairs, which is how `translate`
consumes it. -/
structure Language where
  name : List Char
  lower_mode : CapitalizationMode
  dict : List (List Char × List Char)
deriving DecidableEq

/-- The replacement computed for one `Preserve`-mode match,
src/main.rs lines 184-196: `seg` is the original text segment at the match,
`t` the whole current text, `translation` the dictionary translation. -/
def preserveReplacement (seg t translation : List Char) : List Char :=
  if toLower seg = seg then toLower translation
  else if toUpper seg = seg ∧ toUpper t = t then toUpper translation
  else
    match translation with
    | [] => []
    | f :: rest => charUpper f ++ rest

/-- Processing of one `Preserve`-mode match at byte offset `pos`,
src/main.rs lines 180-198: slice the current text at
`[pos, pos + word.len())`, classify the casing of that segment, and splice
the accordingly-cased translation over the range.  `none` models the panic
of Rust byte slicing at an invalid index. -/
def processMatch (word translation t : List Char) (pos : Nat) : Option (List Char) :=
  let endPos := pos + utf8Len word
  (splitAtByte pos t).bind fun pr =>
    (splitAtByte (endPos - pos) pr.2).bind fun sp =>
      some (pr.1 ++ preserveReplacement sp.1 t translation ++ sp.2)

/-- Processing of one dictionary entry in `Preserve` mode, src/main.rs lines
171-200: collect the match offsets of the lowercased word against the
lowercased current text, then process them in reverse order. -/
def processEntry (word translation t : List Char) : Option (List Char) :=
  ((matchIndices (toLower word) (toLower t)).reverse).foldlM
    (processMatch word translation) t

/-- The whole `Preserve` branch of `translate`: fold `processEntry` over the
dictionary in insertion order. -/
def translatePreserve (dict : List (List Char × List Char)) (t : List Char) :
    Option (List Char) :=
  dict.foldlM (fun acc p => processEntry p.1 p.2 acc) t

/-- Model of `translate`, src/main.rs lines 153-205.  `none` models a panic
(which only the `Preserve` branch can produce). -/
def translate (text : List Char) (language : Language) : Option (List Char) :=
  let t := trim text
  match language.lower_mode with
  | CapitalizationMode.Lower =>
    some (language.dict.foldl
      (fun s p => strReplace s (toLower p.1) (toLower p.2)) (toLower t))
  | CapitalizationMode.Upper =>
    some (language.dict.foldl
      (fun s p => strReplace s (toUpper p.1) (toUpper p.2)) (toUpper t))
  | CapitalizationMode.Preserve => translatePreserve language.dict t

/-- Abbreviation for string literals as character lists. -/
def str (s : String) : List Char := s.toList

/-- Outcome of one iteration of the interactive loop. -/
inductive ReplStep
  | quit
  | step (translated : Option (List Char))
deriving DecidableEq

/-- One iteration of the interactive loop, src/main.rs lines 134-150, after
one line has been read: quit when the trimmed input is a member of the
quit-keyword set (`HashSet::contains`, exact case-sensitive equality),
otherwise translate the (untrimmed) input line and continue. -/
def replIteration (language : Language) (quitWords : List (List Char))
    (input : List Char) : ReplStep :=
  if trim input ∈ quitWords then ReplStep.quit
  else ReplStep.step (translate input language)

/-- src/main.rs lines 8-20 (the parsed command line). -/
structure Args where
  text : Option (List Char)
  repl : Bool
  config_path : List Char
  language : Option (List Char)
  no_clipboard : Bool

/-- src/main.rs lines 30-36. -/
structure Global where
  default_language : Option (List Char)
  copy_to_clipboard : Option Bool
  quit_keywords : Option (List (List Char))

/-- src/main.rs lines 22-28. -/
structure Config where
  global : Option Global
  languages : List Language

/-- The combined outcome of reading and TOML-parsing the configuration file
(external I/O, supplied as a parameter to the model of `main`):
the three error cases distinguished by src/main.rs lines 57-71, or the
parsed configuration. -/
inductive ConfigLoad
  | notFound
  | unreadable
  | unparsable
  | ok (config : Config)

/-- Observable outcome of `main`: the lines printed by `main` itself, the
process result (`some ()` models `Ok(())`/exit code 0, `none` models an
`Err` return or a panic), whether `translate` was invoked for a one-shot
translation, and whether the interactive loop was entered. -/
structure MainOutcome where
  printed : List (List Char)
  result : Option Unit
  ranTranslate : Bool
  ranRepl : Bool
deriving DecidableEq

/-- src/main.rs lines 79-85: the requested language name, from `--language`
or else from `global.default-language`. -/
def resolveName (args : Args) (config : Config) : Option (List Char) :=
  args.language.orElse fun _ => config.global.bind fun g => g.default_language

/-- src/main.rs line 87: first configured profile with the requested name. -/
def findLanguage (config : Config) (lname : List Char) : Option Language :=
  config.languages.find? fun l => l.name == lname

/-- Model of `main`, src/main.rs lines 54-117.  External effects are supplied
as parameters: `load` is the combined result of reading and parsing the
configuration file, `cbNew` the result of `Clipboard::new()` (`none` =
failure), `cbSet` the result of `Clipboard::set_text` in one-shot mode, and
`replRes` the result of the interactive loop when it is entered (its own
printing is abstracted inside it). -/
def mainModel (args : Args) (load : ConfigLoad) (cbNew : Option Unit)
    (cbSet : Option Unit) (replRes : Option Unit) : MainOutcome :=
  match load with
  | ConfigLoad.notFound =>
    ⟨[str "Could not find `" ++ args.config_path ++ str "`"], some (), false, false⟩
  | ConfigLoad.unreadable =>
    ⟨[str "Could not read config file"], some (), false, false⟩
  | ConfigLoad.unparsable =>
    ⟨[str "Could not parse config file"], some (), false, false⟩
  | ConfigLoad.ok config =>
    match (if args.no_clipboard then some none else cbNew.map some :
        Option (Option Unit)) with
    | none => ⟨[], none, false, false⟩
    | some cb =>
      match resolveName args config with
      | none => ⟨[str "No language specified"], some (), false, false⟩
      | some lname =>
        match findLanguage config lname with
        | none =>
          ⟨[str "Language " ++ lname ++ str " not found"], some (), false, false⟩
        | some language =>
          match args.text with
          | some t =>
            match translate t language with
            | none => ⟨[], none, true, false⟩
            | some out =>
              match cb with
              | some _ =>
                match cbSet with
                | some _ => ⟨[out], some (), true, false⟩
                | none => ⟨[out], none, true, false⟩
              | none => ⟨[out], some (), true, false⟩
          | none =>
            if args.repl then ⟨[], replRes, false, true⟩
            else ⟨[], some (), false, false⟩

/-- The casing rule exactly as claim C2 words it: identical to
`processMatch` except that the all-uppercase context check is made against
the entire (trimmed) input text `orig` instead of the current text. -/
def processMatchClaimC2 (orig word translation t : List Char) (pos : Nat) :
    Option (List Char) :=
  let endPos := pos + utf8Len word
  (splitAtByte pos t).bind fun pr =>
    (splitAtByte (endPos - pos) pr.2).bind fun sp =>
      some (pr.1 ++ preserveReplacement sp.1 orig translation ++ sp.2)

/-- `Preserve`-mode translation as claim C2 words it (casing context = the
whole trimmed input text). -/
def translateClaimC2 (text : List Char) (dict : List (List Char × List Char)) :
    Option (List Char) :=
  let t := trim text
  dict.foldlM
    (fun acc p =>
      ((matchIndices (toLower p.1) (toLower acc)).reverse).foldlM
        (processMatchClaimC2 t p.1 p.2) acc)
    t

/-- Byte offsets of every (also overlapping) occurrence of `pat` in `s`:
the reading "all start offsets of the lowercased word" of claim C3. -/
def allOccurrences (pat s : List Char) : List Nat :=
  (List.range (s.length + 1)).filterMap fun i =>
    if pat.isPrefixOf (s.drop i) then some (utf8Len (s.take i)) else none

/-- `Preserve`-mode translation as claim C3 words it: for each entry, every
start offset of the lowercased word in the lowercased current text is
processed, in strictly decreasing offset order. -/
def translateClaimC3 (text : List Char) (dict : List (List Char × List Char)) :
    Option (List Char) :=
  let t := trim text
  dict.foldlM
    (fun acc p =>
      ((allOccurrences (toLower p.1) (toLower acc)).reverse).foldlM
        (processMatch p.1 p.2) acc)
    t

/-- The profile of the repository's own unit test,
src/main.rs lines 213-222. -/
def testLanguage : Language :=
  ⟨str "test", CapitalizationMode.Lower,
    [(str "hello", str "hola"), (str "world", str "mundo")]⟩

/-- A `Preserve`-mode profile whose dictionary word is U+212A KELVIN SIGN
(three UTF-8 bytes, lowercases to the one-byte 'k'). -/
def kelvinLanguage : Language :=
  ⟨str "kelvin", CapitalizationMode.Preserve, [(['K'], str "x")]⟩

/-- A `Lower`-mode profile where a later entry's translation contains an
earlier entry's word. -/
def cascadeLanguage : Language :=
  ⟨str "cascade", CapitalizationMode.Lower,
    [(str "a", str "b"), (str "c", str "a")]⟩

/-- A `Preserve`-mode profile whose first replacement turns a mixed-case
text into an all-uppercase one. -/
def mixedCaseLanguage : Language :=
  ⟨str "mixed", CapitalizationMode.Preserve,
    [(str "xy", str "C"), (str "b", str "de")]⟩

/-- A `Preserve`-mode profile with a self-overlapping dictionary word. -/
def overlapLanguage : Language :=
  ⟨str "overlap", CapitalizationMode.Preserve, [(str "aa", str "b")]⟩

/-! Helper lemmas. -/

theorem utf8Len_nil : utf8Len [] = 0 := rfl

theorem utf8Len_cons (c : Char) (s : List Char) :
    utf8Len (c :: s) = c.utf8Size + utf8Len s := by
  simp [utf8Len]

theorem isPrefixOf_exists {pat s : List Char} (h : pat.isPrefixOf s = true) :
    ∃ t, s = pat ++ t := by
  induction pat generalizing s with
  | nil => exact ⟨s, rfl⟩
  | cons c cs ih =>
    cases s with
    | nil => simp [List.isPrefixOf] at h
    | cons d ds =>
      simp only [List.isPrefixOf, Bool.and_eq_true, beq_iff_eq] at h
      obtain ⟨t, ht⟩ := ih h.2
      exact ⟨t, by rw [h.1, List.cons_append, ht]⟩

theorem splitAtByte_spec :
    ∀ (n : Nat) (s : List Char) (p : List Char × List Char),
      splitAtByte n s = some p → s = p.1 ++ p.2 ∧ utf8Len p.1 = n := by
  intro n
  induction n using Nat.strong_induction_on with
  | _ n ih =>
    intro s p h
    match n, s with
    | 0, s =>
      simp only [splitAtByte, Option.some.injEq] at h
      subst h
      exact ⟨rfl, rfl⟩
    | m + 1, [] => simp [splitAtByte] at h
    | m + 1, c :: cs =>
      simp only [splitAtByte] at h
      split at h
      · rename_i hle
        cases hq : splitAtByte (m + 1 - c.utf8Size) cs with
        | none => rw [hq] at h; simp at h
        | some q =>
          rw [hq] at h
          simp only [Option.map_some', Option.some.injEq] at h
          have hlt : m + 1 - c.utf8Size < m + 1 :=
            Nat.sub_lt (Nat.succ_pos m) (Char.utf8Size_pos c)
          obtain ⟨hq1, hq2⟩ := ih _ hlt cs q hq
          subst h
          constructor
          · simp [hq1]
          · simp only [utf8Len_cons, hq2]
            omega
      · simp at h

/-- Every character of `s` is fixed by `char::to_lowercase`
(the claims' "all-lowercase"). -/
def AllLower (s : List Char) : Prop := ∀ c ∈ s, charLower c = [c]

/-- Every character of `s` is fixed by `char::to_uppercase`
(the claims' "all-uppercase"). -/
def AllUpper (s : List Char) : Prop := ∀ c ∈ s, charUpper c = [c]

instance (s : List Char) : Decidable (AllLower s) := by
  unfold AllLower; infer_instance

instance (s : List Char) : Decidable (AllUpper s) := by
  unfold AllUpper; infer_instance

theorem charLower_shift :
    ∀ n, n < 91 → 65 ≤ n → charLower (Char.ofNat (n + 32)) = [Char.ofNat (n + 32)] := by
  decide

theorem charUpper_shift :
    ∀ n, n < 123 → 97 ≤ n → charUpper (Char.ofNat (n - 32)) = [Char.ofNat (n - 32)] := by
  decide

theorem charLower_singleton (c : Char) : ∃ d, charLower c = [d] := by
  unfold charLower
  split
  · exact ⟨_, rfl⟩
  · split
    · exact ⟨_, rfl⟩
    · exact ⟨_, rfl⟩

theorem charUpper_singleton (c : Char) : ∃ d, charUpper c = [d] := by
  unfold charUpper
  split
  · exact ⟨_, rfl⟩
  · exact ⟨_, rfl⟩

theorem charLower_charLower {c d : Char} (h : d ∈ charLower c) :
    charLower d = [d] := by
  unfold charLower at h
  split at h
  · rename_i h1
    simp only [List.mem_singleton] at h
    subst h
    exact charLower_shift c.toNat (by omega) h1.1
  · split at h
    · simp only [List.mem_singleton] at h
      subst h
      decide
    · rename_i h1 h2
      simp only [List.mem_singleton] at h
      subst h
      simp [charLower, h1, h2]

theorem charUpper_charUpper {c d : Char} (h : d ∈ charUpper c) :
    charUpper d = [d] := by
  unfold charUpper at h
  split at h
  · rename_i h1
    simp only [List.mem_singleton] at h
    subst h
    exact charUpper_shift c.toNat (by omega) h1.1
  · rename_i h1
    simp only [List.mem_singleton] at h
    subst h
    simp [charUpper, h1]

theorem toLower_eq_self_of_allLower {s : List Char} (h : AllLower s) :
    toLower s = s := by
  induction s with
  | nil => rfl
  | cons c cs ih =>
    have hc : charLower c = [c] := h c (List.mem_cons_self c cs)
    have hcs : AllLower cs := fun d hd => h d (List.mem_cons_of_mem c hd)
    simp [toLower, hc, ih hcs]

theorem allLower_of_toLower_eq_self {s : List Char} (h : toLower s = s) :
    AllLower s := by
  induction s with
  | nil => intro c hc; simp at hc
  | cons c cs ih =>
    obtain ⟨d, hd⟩ := charLower_singleton c
    simp only [toLower, hd, List.cons_append, List.nil_append, List.cons.injEq] at h
    intro e he
    rcases List.mem_cons.mp he with rfl | he
    · rw [hd, h.1]
    · exact ih h.2 e he

theorem toLower_eq_self_iff (s : List Char) : toLower s = s ↔ AllLower s :=
  ⟨allLower_of_toLower_eq_self, toLower_eq_self_of_allLower⟩

theorem toUpper_eq_self_of_allUpper {s : List Char} (h : AllUpper s) :
    toUpper s = s := by
  induction s with
  | nil => rfl
  | cons c cs ih =>
    have hc : charUpper c = [c] := h c (List.mem_cons_self c cs)
    have hcs : AllUpper cs := fun d hd => h d (List.mem_cons_of_mem c hd)
    simp [toUpper, hc, ih hcs]

theorem allUpper_of_toUpper_eq_self {s : List Char} (h : toUpper s = s) :
    AllUpper s := by
  induction s with
  | nil => intro c hc; simp at hc
  | cons c cs ih =>
    obtain ⟨d, hd⟩ := charUpper_singleton c
    simp only [toUpper, hd, List.cons_append, List.nil_append, List.cons.injEq] at h
    intro e he
    rcases List.mem_cons.mp he with rfl | he
    · rw [hd, h.1]
    · exact ih h.2 e he

theorem toUpper_eq_self_iff (s : List Char) : toUpper s = s ↔ AllUpper s :=
  ⟨allUpper_of_toUpper_eq_self, toUpper_eq_self_of_allUpper⟩

theorem allLower_toLower (s : List Char) : AllLower (toLower s) := by
  induction s with
  | nil => intro c hc; simp [toLower] at hc
  | cons c cs ih =>
    intro d hd
    simp only [toLower, List.mem_append] at hd
    rcases hd with hd | hd
    · exact charLower_charLower hd
    · exact ih d hd

theorem mem_replaceAllNE {pat rep : List Char} :
    ∀ (s : List Char) (skip : Nat) (c : Char),
      c ∈ replaceAllNE pat rep s skip → c ∈ s ∨ c ∈ rep := by
  intro s
  induction s with
  | nil => intro skip c h; simp [replaceAllNE] at h
  | cons d ds ih =>
    intro skip c h
    cases skip with
    | succ k =>
      simp only [replaceAllNE] at h
      rcases ih k c h with h1 | h1
      · exact Or.inl (List.mem_cons_of_mem d h1)
      · exact Or.inr h1
    | zero =>
      simp only [replaceAllNE] at h
      split at h
      · rcases List.mem_append.mp h with h1 | h1
        · exact Or.inr h1
        · rcases ih _ c h1 with h2 | h2
          · exact Or.inl (List.mem_cons_of_mem d h2)
          · exact Or.inr h2
      · rcases List.mem_cons.mp h with rfl | h1
        · exact Or.inl (List.mem_cons_self c ds)
        · rcases ih 0 c h1 with h2 | h2
          · exact Or.inl (List.mem_cons_of_mem d h2)
          · exact Or.inr h2

theorem mem_replaceAllEmpty {rep : List Char} :
    ∀ (s : List Char) (c : Char),
      c ∈ replaceAllEmpty rep s → c ∈ s ∨ c ∈ rep := by
  intro s
  induction s with
  | nil => intro c h; exact Or.inr h
  | cons d ds ih =>
    intro c h
    simp only [replaceAllEmpty, List.mem_append, List.mem_cons] at h
    rcases h with h | rfl | h
    · exact Or.inr h
    · exact Or.inl (List.mem_cons_self c ds)
    · rcases ih c h with h1 | h1
      · exact Or.inl (List.mem_cons_of_mem d h1)
      · exact Or.inr h1

theorem mem_strReplace {s pat rep : List Char} {c : Char}
    (h : c ∈ strReplace s pat rep) : c ∈ s ∨ c ∈ rep := by
  unfold strReplace at h
  split at h
  · exact mem_replaceAllEmpty s c h
  · exact mem_replaceAllNE s 0 c h

theorem allLower_strReplace {s pat rep : List Char}
    (hs : AllLower s) (hrep : AllLower rep) : AllLower (strReplace s pat rep) := by
  intro c hc
  rcases mem_strReplace hc with h | h
  · exact hs c h
  · exact hrep c h

theorem allLower_lowerFold (dict : List (List Char × List Char)) :
    ∀ t, AllLower t →
      AllLower (dict.foldl (fun s p => strReplace s (toLower p.1) (toLower p.2)) t) := by
  induction dict with
  | nil => intro t ht; exact ht
  | cons p ps ih =>
    intro t ht
    exact ih _ (allLower_strReplace ht (allLower_toLower p.2))

theorem le_byteBoundaries :
    ∀ (s : List Char) (off x : Nat), x ∈ byteBoundaries s off → off ≤ x := by
  intro s
  induction s with
  | nil =>
    intro off x h
    simp only [byteBoundaries, List.mem_singleton] at h
    omega
  | cons c cs ih =>
    intro off x h
    simp only [byteBoundaries, List.mem_cons] at h
    rcases h with rfl | h
    · exact Nat.le_refl x
    · have := ih (off + c.utf8Size) x h
      omega

theorem chain_byteBoundaries :
    ∀ (s : List Char) (off : Nat), List.Chain' (· < ·) (byteBoundaries s off) := by
  intro s
  induction s with
  | nil => intro off; simp [byteBoundaries]
  | cons c cs ih =>
    intro off
    rw [byteBoundaries, List.chain'_cons']
    refine ⟨fun y hy => ?_, ih (off + c.utf8Size)⟩
    have hmem : y ∈ byteBoundaries cs (off + c.utf8Size) := List.mem_of_mem_head? hy
    have := le_byteBoundaries cs (off + c.utf8Size) y hmem
    have := Char.utf8Size_pos c
    omega

theorem le_matchIndicesFrom {pat : List Char} :
    ∀ (s : List Char) (off skip x : Nat),
      x ∈ matchIndicesFrom pat s off skip → off ≤ x := by
  intro s
  induction s with
  | nil => intro off skip x h; simp [matchIndicesFrom] at h
  | cons c cs ih =>
    intro off skip x h
    have hsz := Char.utf8Size_pos c
    cases skip with
    | succ k =>
      simp only [matchIndicesFrom] at h
      have := ih (off + c.utf8Size) k x h
      omega
    | zero =>
      simp only [matchIndicesFrom] at h
      split at h
      · rcases List.mem_cons.mp h with rfl | h1
        · exact Nat.le_refl x
        · have := ih (off + c.utf8Size) _ x h1
          omega
      · have := ih (off + c.utf8Size) 0 x h
        omega

theorem chain_matchIndicesFrom {pat : List Char} :
    ∀ (s : List Char) (off skip : Nat),
      List.Chain' (· < ·) (matchIndicesFrom pat s off skip) := by
  intro s
  induction s with
  | nil => intro off skip; simp [matchIndicesFrom]
  | cons c cs ih =>
    intro off skip
    have hsz := Char.utf8Size_pos c
    cases skip with
    | succ k => simp only [matchIndicesFrom]; exact ih (off + c.utf8Size) k
    | zero =>
      simp only [matchIndicesFrom]
      split
      · rw [List.chain'_cons']
        refine ⟨fun y hy => ?_, ih (off + c.utf8Size) _⟩
        have hmem := List.mem_of_mem_head? hy
        have := le_matchIndicesFrom cs (off + c.utf8Size) _ y hmem
        omega
      · exact ih (off + c.utf8Size) 0

theorem chain_matchIndices (pat s : List Char) :
    List.Chain' (· < ·) (matchIndices pat s) := by
  unfold matchIndices
  split
  · exact chain_byteBoundaries s 0
  · exact chain_matchIndicesFrom s 0 0

theorem occ_byteBoundaries :
    ∀ (s : List Char) (off x : Nat), x ∈ byteBoundaries s off →
      ∃ pre suf, s = pre ++ suf ∧ off + utf8Len pre = x := by
  intro s
  induction s with
  | nil =>
    intro off x h
    simp only [byteBoundaries, List.mem_singleton] at h
    exact ⟨[], [], rfl, by simp [utf8Len_nil, h]⟩
  | cons c cs ih =>
    intro off x h
    simp only [byteBoundaries, List.mem_cons] at h
    rcases h with rfl | h
    · exact ⟨[], c :: cs, rfl, by simp [utf8Len_nil]⟩
    · obtain ⟨pre, suf, h1, h2⟩ := ih (off + c.utf8Size) x h
      exact ⟨c :: pre, suf, by rw [List.cons_append, h1],
        by rw [utf8Len_cons]; omega⟩

theorem occ_matchIndicesFrom {pat : List Char} :
    ∀ (s : List Char) (off skip x : Nat),
      x ∈ matchIndicesFrom pat s off skip →
      ∃ pre suf, s = pre ++ pat ++ suf ∧ off + utf8Len pre = x := by
  intro s
  induction s with
  | nil => intro off skip x h; simp [matchIndicesFrom] at h
  | cons c cs ih =>
    intro off skip x h
    cases skip with
    | succ k =>
      simp only [matchIndicesFrom] at h
      obtain ⟨pre, suf, h1, h2⟩ := ih (off + c.utf8Size) k x h
      exact ⟨c :: pre, suf, by subst h1; simp [List.append_assoc],
        by rw [utf8Len_cons]; omega⟩
    | zero =>
      simp only [matchIndicesFrom] at h
      split at h
      · rename_i hpre
        rcases List.mem_cons.mp h with rfl | h1
        · obtain ⟨t, ht⟩ := isPrefixOf_exists hpre
          exact ⟨[], t, by simpa using ht, by simp [utf8Len_nil]⟩
        · obtain ⟨pre, suf, h1, h2⟩ := ih (off + c.utf8Size) _ x h1
          exact ⟨c :: pre, suf, by subst h1; simp [List.append_assoc],
            by rw [utf8Len_cons]; omega⟩
      · obtain ⟨pre, suf, h1, h2⟩ := ih (off + c.utf8Size) 0 x h
        exact ⟨c :: pre, suf, by subst h1; simp [List.append_assoc],
          by rw [utf8Len_cons]; omega⟩

theorem occ_matchIndices {pat s : List Char} {x : Nat}
    (h : x ∈ matchIndices pat s) :
    ∃ pre suf, s = pre ++ pat ++ suf ∧ utf8Len pre = x := by
  unfold matchIndices at h
  split at h
  · rename_i hp
    obtain ⟨pre, suf, h1, h2⟩ := occ_byteBoundaries s 0 x h
    subst hp
    exact ⟨pre, suf, by simpa using h1, by omega⟩
  · obtain ⟨pre, suf, h1, h2⟩ := occ_matchIndicesFrom s 0 0 x h
    exact ⟨pre, suf, h1, by omega⟩

/-! Claim theorems. -/

/-- Claim C1: the claim states that `translate` is total and never panics for
any input string and any valid profile, in particular in `Preserve` mode.
The code violates this: with the dictionary word U+212A KELVIN SIGN (three
UTF-8 bytes, whose lowercase form is the one-byte 'k') and input "k", the
match offset 0 found on the lowercased copy is combined with the original
word's byte length 3, and slicing `text[0..3]` of the one-byte current text
panics; the model evaluates to `none` (= panic) there. -/
theorem claim_C1_panic_on_kelvin :
    translate (str "k") kelvinLanguage = none := by
  decide

/-- Claim C2, counterexample: the claim derives the all-uppercase replacement
case from "the entire input text", but the code checks the entire *current*
text (`text.to_uppercase() == text` on the mutated buffer).  On input "XyB"
with dictionary [("xy", "C"), ("b", "de")] in `Preserve` mode the first entry
rewrites the text to "CB" (all-uppercase although the input was not), so the
code uppercases the second translation ("CDE") while the claim's reading
title-cases it ("CDe"). -/
theorem claim_C2_counterexample :
    translate (str "XyB") mixedCaseLanguage = some (str "CDE") ∧
    translateClaimC2 (str "XyB") mixedCaseLanguage.dict = some (str "CDe") ∧
    (some (str "CDE") : Option (List Char)) ≠ some (str "CDe") :=
  ⟨by decide, by decide, by decide⟩

/-- Claim C2, amended: in `Preserve` mode the replacement for a match is the
translation lowercased when the matched segment is all-lowercase; the
translation uppercased when the segment is all-uppercase and the entire
*current* text (at the time the match is processed) is all-uppercase; and
otherwise the translation with only its first character uppercased (an empty
translation giving an empty replacement). -/
theorem claim_C2_replacement_casing (seg t translation : List Char) :
    (AllLower seg → preserveReplacement seg t translation = toLower translation) ∧
    (¬ AllLower seg → AllUpper seg → AllUpper t →
      preserveReplacement seg t translation = toUpper translation) ∧
    (¬ AllLower seg → ¬ (AllUpper seg ∧ AllUpper t) →
      preserveReplacement seg t translation =
        match translation with
        | [] => []
        | f :: rest => charUpper f ++ rest) := by
  unfold preserveReplacement
  refine ⟨?_, ?_, ?_⟩
  · intro h
    rw [if_pos (toLower_eq_self_of_allLower h)]
  · intro h1 h2 h3
    rw [if_neg (fun he => h1 (allLower_of_toLower_eq_self he)),
      if_pos ⟨toUpper_eq_self_of_allUpper h2, toUpper_eq_self_of_allUpper h3⟩]
  · intro h1 h2
    have hn1 : ¬ toLower seg = seg := fun he => h1 (allLower_of_toLower_eq_self he)
    have hn2 : ¬ (toUpper seg = seg ∧ toUpper t = t) := fun hc =>
      h2 ⟨allUpper_of_toUpper_eq_self hc.1, allUpper_of_toUpper_eq_self hc.2⟩
    rw [if_neg hn1, if_neg hn2]

/-- Witness for claim C2's theorem at concrete inputs. -/
theorem claim_C2_replacement_casing_witness :
    preserveReplacement (str "AB") (str "AB") (str "xy") = toUpper (str "xy") :=
  (claim_C2_replacement_casing (str "AB") (str "AB") (str "xy")).2.1
    (by decide) (by decide) (by decide)

/-- Claim C3, counterexample: the claim says `translate` finds *all* start
offsets of the lowercased word, but `str::match_indices` only reports
disjoint (leftmost-first, non-overlapping) matches.  With word "aa" and text
"aaa" the occurrences start at 0 and 1; the code only processes offset 0 and
returns "ba", while processing all offsets as the claim states would return
"b". -/
theorem claim_C3_counterexample :
    translate (str "aaa") overlapLanguage = some (str "ba") ∧
    translateClaimC3 (str "aaa") overlapLanguage.dict = some (str "b") ∧
    (some (str "ba") : Option (List Char)) ≠ some (str "b") :=
  ⟨by decide, by decide, by decide⟩

/-- Claim C3, amended: for each dictionary entry `translate` finds the start
offsets of the disjoint, leftmost-first matches of the lowercased word in
the fully-lowercased current text — every reported offset is a genuine
occurrence, in strictly increasing order, so the reversed processing order
is strictly decreasing — and each processed match splices the replacement
over the byte range [offset, offset + byte length of the original
dictionary word) of the current text. -/
theorem claim_C3_match_processing :
    (∀ pat s, List.Chain' (· > ·) ((matchIndices pat s).reverse)) ∧
    (∀ pat s x, x ∈ matchIndices pat s →
      ∃ pre suf, s = pre ++ pat ++ suf ∧ utf8Len pre = x) ∧
    (∀ word translation t, processEntry word translation t =
      ((matchIndices (toLower word) (toLower t)).reverse).foldlM
        (processMatch word translation) t) ∧
    (∀ word translation t pos out,
      processMatch word translation t pos = some out →
      ∃ pre seg post, t = pre ++ seg ++ post ∧ utf8Len pre = pos ∧
        utf8Len seg = utf8Len word ∧
        out = pre ++ preserveReplacement seg t translation ++ post) := by
  refine ⟨?_, ?_, ?_, ?_⟩
  · intro pat s
    rw [List.chain'_reverse]
    exact chain_matchIndices pat s
  · intro pat s x h
    exact occ_matchIndices h
  · intro word translation t
    rfl
  · intro word translation t pos out h
    unfold processMatch at h
    cases h1 : splitAtByte pos t with
    | none => rw [h1, Option.none_bind] at h; exact absurd h (by simp)
    | some pr =>
      rw [h1, Option.some_bind] at h
      cases h2 : splitAtByte (pos + utf8Len word - pos) pr.2 with
      | none => rw [h2, Option.none_bind] at h; exact absurd h (by simp)
      | some sp =>
        rw [h2, Option.some_bind] at h
        obtain ⟨ht1, ht2⟩ := splitAtByte_spec pos t pr h1
        obtain ⟨hs1, hs2⟩ := splitAtByte_spec _ pr.2 sp h2
        refine ⟨pr.1, sp.1, sp.2, ?_, ht2, ?_, ?_⟩
        · rw [ht1, hs1, List.append_assoc]
        · rw [hs2]; omega
        · exact (Option.some.inj h).symm

/-- Witness for claim C3's theorem at concrete inputs. -/
theorem claim_C3_match_processing_witness :
    ∃ pre suf, str "aba" = pre ++ str "b" ++ suf ∧ utf8Len pre = 1 :=
  claim_C3_match_processing.2.1 (str "b") (str "aba") 1 (by decide)

/-- Claim C4: `translate` is not idempotent in general: with the `Lower`-mode
dictionary [("a", "b"), ("c", "a")] and input "c", one pass yields "a" but a
second pass turns that into "b", because entries are applied in insertion
order against the progressively modified text. -/
theorem claim_C4_not_idempotent :
    (translate (str "c") cascadeLanguage).bind
      (fun o => translate o cascadeLanguage) ≠ translate (str "c") cascadeLanguage := by
  decide

/-- Claim C5: in `Lower` mode the output of `translate` is entirely
lowercase: lowercasing the output leaves it unchanged. -/
theorem claim_C5_lower_mode_all_lowercase (text : List Char) (language : Language)
    (hmode : language.lower_mode = CapitalizationMode.Lower)
    (out : List Char) (hout : translate text language = some out) :
    toLower out = out := by
  simp only [translate, hmode, Option.some.injEq] at hout
  subst hout
  exact toLower_eq_self_of_allLower
    (allLower_lowerFold language.dict _ (allLower_toLower (trim text)))

/-- Witness for claim C5's theorem at concrete inputs. -/
theorem claim_C5_lower_mode_all_lowercase_witness :
    toLower (str "hola mundo") = str "hola mundo" :=
  claim_C5_lower_mode_all_lowercase (str "Hello WorLd") testLanguage rfl
    (str "hola mundo") (by decide)

/-- Claim C6: with an empty dictionary, `translate` returns the trimmed
input, case-normalized according to the mode: lowercased for `Lower`,
uppercased for `Upper`, and unchanged for `Preserve`. -/
theorem claim_C6_empty_dict (text : List Char) (language : Language)
    (hdict : language.dict = []) :
    translate text language = some
      (match language.lower_mode with
       | CapitalizationMode.Lower => toLower (trim text)
       | CapitalizationMode.Upper => toUpper (trim text)
       | CapitalizationMode.Preserve => trim text) := by
  obtain ⟨n, mode, dict⟩ := language
  simp only at hdict
  subst hdict
  cases mode <;> rfl

/-- Witness for claim C6's theorem at concrete inputs. -/
theorem claim_C6_empty_dict_witness :
    translate (str "  Hi  ") ⟨str "e", CapitalizationMode.Preserve, []⟩ =
      some (str "Hi") :=
  (claim_C6_empty_dict (str "  Hi  ")
    ⟨str "e", CapitalizationMode.Preserve, []⟩ rfl).trans (by decide)

/-- Claim C7: with the dictionary [("hello", "hola"), ("world", "mundo")] and
mode `Lower`, `translate` maps "hello world" and "Hello WorLd" both to
"hola mundo" (the repository's own unit test). -/
theorem claim_C7_test_vectors :
    translate (str "hello world") testLanguage = some (str "hola mundo") ∧
    translate (str "Hello WorLd") testLanguage = some (str "hola mundo") :=
  ⟨by decide, by decide⟩

/-- Claim C8: an iteration of the interactive loop quits exactly when the
trimmed input line is case-sensitively equal to a member of the quit-keyword
set; otherwise (in particular when the input merely contains a quit keyword
as a substring) the input is translated and the loop continues. -/
theorem claim_C8_quit_iff (language : Language) (quitWords : List (List Char))
    (input : List Char) :
    (replIteration language quitWords input = ReplStep.quit ↔
      trim input ∈ quitWords) ∧
    (trim input ∉ quitWords →
      replIteration language quitWords input =
        ReplStep.step (translate input language)) := by
  unfold replIteration
  constructor
  · constructor
    · intro h
      by_contra hmem
      rw [if_neg hmem] at h
      exact ReplStep.noConfusion h
    · intro h
      rw [if_pos h]
  · intro h
    rw [if_neg h]

/-- Witness for claim C8's theorem: " quit now" contains the quit keyword
"quit" but does not quit; " quit " trims to the keyword and quits. -/
theorem claim_C8_quit_iff_witness :
    replIteration testLanguage [str "quit"] (str " quit now") =
      ReplStep.step (translate (str " quit now") testLanguage) ∧
    replIteration testLanguage [str "quit"] (str " quit ") = ReplStep.quit :=
  ⟨(claim_C8_quit_iff testLanguage [str "quit"] (str " quit now")).2 (by decide),
   (claim_C8_quit_iff testLanguage [str "quit"] (str " quit ")).1.mpr (by decide)⟩

/-- Claim C9: when the requested language name is not found among the
configured profiles, `main` prints exactly one diagnostic line containing the
requested name, returns `Ok` (exit code 0), performs no translation and does
not enter the interactive loop. -/
theorem claim_C9_language_not_found (args : Args) (config : Config)
    (cbNew cbSet replRes : Option Unit) (lname : List Char)
    (hcb : args.no_clipboard = true ∨ cbNew = some ())
    (hres : resolveName args config = some lname)
    (hfind : findLanguage config lname = none) :
    mainModel args (ConfigLoad.ok config) cbNew cbSet replRes =
      ⟨[str "Language " ++ lname ++ str " not found"], some (), false, false⟩ ∧
    ∃ a b, str "Language " ++ lname ++ str " not found" = a ++ lname ++ b := by
  constructor
  · by_cases hb : args.no_clipboard
    · simp [mainModel, hb, hres, hfind]
    · rcases hcb with hnc | hsome
      · exact absurd hnc hb
      · simp [mainModel, hb, hsome, hres, hfind]
  · exact ⟨str "Language ", str " not found", rfl⟩

/-- Witness for claim C9's theorem at concrete inputs. -/
theorem claim_C9_language_not_found_witness :
    mainModel ⟨none, false, str "c", some (str "xx"), true⟩
      (ConfigLoad.ok ⟨none, []⟩) none none none =
      ⟨[str "Language xx not found"], some (), false, false⟩ :=
  ((claim_C9_language_not_found ⟨none, false, str "c", some (str "xx"), true⟩
    ⟨none, []⟩ none none none (str "xx") (Or.inl rfl) (by decide)
    (by decide)).1).trans (by decide)

/-- Claim C10: when neither `--text` nor `--repl` is supplied and the
configuration and language resolve successfully, `main` prints nothing,
performs no translation, does not enter the loop, and still returns `Ok`
(exit code 0); the clipboard is nevertheless initialized before language
resolution unless `--no-clipboard` is set, and its initialization failure
makes `main` return `Err`. -/
theorem claim_C10_no_mode_still_ok (args : Args) (config : Config)
    (cbNew cbSet replRes : Option Unit) (lname : List Char) (language : Language)
    (htext : args.text = none) (hrepl : args.repl = false)
    (hres : resolveName args config = some lname)
    (hfind : findLanguage config lname = some language) :
    (args.no_clipboard = false → cbNew = none →
      (mainModel args (ConfigLoad.ok config) cbNew cbSet replRes).result = none) ∧
    ((args.no_clipboard = true ∨ cbNew = some ()) →
      mainModel args (ConfigLoad.ok config) cbNew cbSet replRes =
        ⟨[], some (), false, false⟩) := by
  constructor
  · intro hnc hnone
    simp [mainModel, hnc, hnone]
  · intro hcb
    by_cases hb : args.no_clipboard
    · simp [mainModel, hb, hres, hfind, htext, hrepl]
    · rcases hcb with hnc | hsome
      · exact absurd hnc hb
      · simp [mainModel, hb, hsome, hres, hfind, htext, hrepl]

/-- Witness for claim C10's theorem at concrete inputs. -/
theorem claim_C10_no_mode_still_ok_witness :
    mainModel ⟨none, false, str "c", some (str "test"), true⟩
      (ConfigLoad.ok ⟨none, [testLanguage]⟩) none none none =
      ⟨[], some (), false, false⟩ :=
  (claim_C10_no_mode_still_ok ⟨none, false, str "c", some (str "test"), true⟩
    ⟨none, [testLanguage]⟩ none none none (str "test") testLanguage rfl rfl
    (by decide) (by decide)).2 (Or.inl rfl)

end Tranclator
